import Mathlib

/-!
Verification development for the sheet-to-triples core: the Term model and
normalizer (rdf.py), the transform template engine (trans.py) and the
orchestrator (run.py), embedded shallowly.  The Python modules themselves are
not part of the source tree here; each operation is modelled from the design
document, and the unit tests of the repository (tests/test_rdf.py,
tests/test_trans.py, tests/test_run.py) pin the concrete behaviour that the
modelled definitions must reproduce.
-/

set_option linter.unusedVariables false

namespace StT

/-! ## String ordering

Python compares `str` values lexicographically by Unicode code point; the
normalizer sorts subjects and predicates with that order.  We define the same
order on Lean strings via their character lists. -/

/-- Boolean lexicographic less-or-equal on character lists, by code point. -/
def strLeB : List Char → List Char → Bool
  | [], _ => true
  | _ :: _, [] => false
  | a :: as, b :: bs =>
    if a.toNat < b.toNat then true
    else if b.toNat < a.toNat then false
    else strLeB as bs

/-- Lexicographic less-or-equal on strings, by Unicode code point. -/
def sle (s t : String) : Prop := strLeB s.data t.data = true

instance : DecidableRel sle := fun _ _ => inferInstanceAs (Decidable (_ = true))

/-- Strict version of `sle`. -/
def slt (s t : String) : Prop := sle s t ∧ s ≠ t

theorem strLeB_refl (l : List Char) : strLeB l l = true := by
  induction l with
  | nil => rfl
  | cons a as ih => simp [strLeB, ih]

theorem strLeB_total (l m : List Char) : strLeB l m = true ∨ strLeB m l = true := by
  induction l generalizing m with
  | nil => left; rfl
  | cons a as ih =>
    cases m with
    | nil => right; rfl
    | cons b bs =>
      rcases Nat.lt_trichotomy a.toNat b.toNat with h | h | h
      · left; simp [strLeB, h]
      · rcases ih bs with h2 | h2
        · left; simp [strLeB, h, h2]
        · right; simp [strLeB, h, h2]
      · right; simp [strLeB, h]

theorem char_toNat_inj {a b : Char} (h : a.toNat = b.toNat) : a = b := by
  rcases a with ⟨⟨av, ha⟩, pa⟩
  rcases b with ⟨⟨bv, hb⟩, pb⟩
  simp [Char.toNat, UInt32.toNat] at h
  subst h
  rfl

theorem strLeB_antisymm {l m : List Char} (h1 : strLeB l m = true)
    (h2 : strLeB m l = true) : l = m := by
  induction l generalizing m with
  | nil =>
    cases m with
    | nil => rfl
    | cons b bs => simp [strLeB] at h2
  | cons a as ih =>
    cases m with
    | nil => simp [strLeB] at h1
    | cons b bs =>
      rcases Nat.lt_trichotomy a.toNat b.toNat with h | h | h
      · simp [strLeB, h, Nat.lt_asymm h] at h2
      · have hab : a = b := char_toNat_inj h
        subst hab
        simp [strLeB] at h1 h2
        rw [ih h1 h2]
      · simp [strLeB, h, Nat.lt_asymm h] at h1

theorem strLeB_trans {l m n : List Char} (h1 : strLeB l m = true)
    (h2 : strLeB m n = true) : strLeB l n = true := by
  induction l generalizing m n with
  | nil => rfl
  | cons a as ih =>
    cases m with
    | nil => simp [strLeB] at h1
    | cons b bs =>
      cases n with
      | nil => simp [strLeB] at h2
      | cons c cs =>
        rcases Nat.lt_trichotomy a.toNat b.toNat with hab | hab | hab <;>
          rcases Nat.lt_trichotomy b.toNat c.toNat with hbc | hbc | hbc
        · simp [strLeB, Nat.lt_trans hab hbc]
        · simp [strLeB, hbc ▸ hab]
        · simp [strLeB, hab, Nat.lt_asymm hab] at h1
          simp [strLeB, hbc, Nat.lt_asymm hbc] at h2
        · simp [strLeB, hab ▸ hbc]
        · have hac : a.toNat = c.toNat := hab.trans hbc
          have hab' : a = b := char_toNat_inj hab
          have hbc' : b = c := char_toNat_inj hbc
          subst hab'; subst hbc'
          simp [strLeB] at h1 h2 ⊢
          exact ih h1 h2
        · simp [strLeB, hbc, Nat.lt_asymm hbc] at h2
        · simp [strLeB, hab, Nat.lt_asymm hab] at h1
        · simp [strLeB, hab, Nat.lt_asymm hab] at h1
        · simp [strLeB, hab, Nat.lt_asymm hab] at h1

theorem sle_refl (s : String) : sle s s := strLeB_refl s.data

theorem sle_total (s t : String) : sle s t ∨ sle t s := strLeB_total s.data t.data

theorem sle_trans {s t u : String} (h1 : sle s t) (h2 : sle t u) : sle s u :=
  strLeB_trans h1 h2

theorem sle_antisymm {s t : String} (h1 : sle s t) (h2 : sle t s) : s = t := by
  rcases s with ⟨sd⟩
  rcases t with ⟨td⟩
  have := strLeB_antisymm (l := sd) (m := td) h1 h2
  rw [this]

instance : IsTotal String sle := ⟨sle_total⟩

instance : IsTrans String sle := ⟨fun _ _ _ => sle_trans⟩

instance : IsAntisymm String sle := ⟨fun _ _ => sle_antisymm⟩

instance : IsRefl String sle := ⟨sle_refl⟩

/-! ## First-occurrence deduplication

Rows are skipped when structurally equal to an earlier row of the same batch,
and a non-unique predicate group drops exact duplicates of earlier triples, so
we need first-occurrence-keeping deduplication. -/

/-- Keep the first occurrence of each element not already in `seen`. -/
def dedupFirstAux [DecidableEq α] (seen : List α) : List α → List α
  | [] => []
  | a :: l => if a ∈ seen then dedupFirstAux seen l else a :: dedupFirstAux (a :: seen) l

/-- Keep the first occurrence of each element. -/
def dedupFirst [DecidableEq α] (l : List α) : List α := dedupFirstAux [] l

theorem dedupFirstAux_sublist [DecidableEq α] (seen : List α) (l : List α) :
    (dedupFirstAux seen l).Sublist l := by
  induction l generalizing seen with
  | nil => exact List.Sublist.refl []
  | cons a l ih =>
    by_cases h : a ∈ seen
    · simp only [dedupFirstAux, if_pos h]
      exact (ih seen).trans (List.sublist_cons_self a l)
    · simp only [dedupFirstAux, if_neg h]
      exact (ih (a :: seen)).cons₂ a

theorem mem_dedupFirstAux [DecidableEq α] {seen l : List α} {x : α} :
    x ∈ dedupFirstAux seen l ↔ x ∈ l ∧ x ∉ seen := by
  induction l generalizing seen with
  | nil => simp [dedupFirstAux]
  | cons a l ih =>
    by_cases h : a ∈ seen
    · rw [dedupFirstAux, if_pos h, ih]
      constructor
      · rintro ⟨hx, hn⟩
        exact ⟨List.mem_cons_of_mem a hx, hn⟩
      · rintro ⟨hx, hn⟩
        rcases List.mem_cons.mp hx with rfl | hx2
        · exact absurd h hn
        · exact ⟨hx2, hn⟩
    · rw [dedupFirstAux, if_neg h]
      constructor
      · intro hx
        rcases List.mem_cons.mp hx with rfl | hx2
        · exact ⟨List.mem_cons_self x l, h⟩
        · rcases ih.mp hx2 with ⟨h1, h2⟩
          exact ⟨List.mem_cons_of_mem a h1,
            fun hc => h2 (List.mem_cons_of_mem a hc)⟩
      · rintro ⟨hx, hn⟩
        rcases List.mem_cons.mp hx with rfl | hx2
        · exact List.mem_cons_self x _
        · by_cases hxa : x = a
          · subst hxa; exact List.mem_cons_self x _
          · refine List.mem_cons_of_mem a (ih.mpr ⟨hx2, ?_⟩)
            intro hc
            rcases List.mem_cons.mp hc with h1 | h1
            · exact hxa h1
            · exact hn h1

theorem nodup_dedupFirstAux [DecidableEq α] (seen l : List α) :
    (dedupFirstAux seen l).Nodup := by
  induction l generalizing seen with
  | nil => exact List.nodup_nil
  | cons a l ih =>
    by_cases h : a ∈ seen
    · simpa only [dedupFirstAux, if_pos h] using ih seen
    · simp only [dedupFirstAux, if_neg h]
      refine List.Nodup.cons (fun hc => ?_) (ih (a :: seen))
      exact (mem_dedupFirstAux.mp hc).2 (List.mem_cons_self a seen)

theorem dedupFirstAux_eq_self [DecidableEq α] {seen l : List α} (hnd : l.Nodup)
    (hdis : ∀ x ∈ l, x ∉ seen) : dedupFirstAux seen l = l := by
  induction l generalizing seen with
  | nil => rfl
  | cons a l ih =>
    have ha : a ∉ seen := hdis a (List.mem_cons_self a l)
    simp only [dedupFirstAux, if_neg ha]
    congr 1
    refine ih (List.Nodup.of_cons hnd) (fun x hx hc => ?_)
    rcases List.mem_cons.mp hc with h1 | h1
    · exact (List.nodup_cons.mp hnd).1 (h1 ▸ hx)
    · exact hdis x (List.mem_cons.mpr (Or.inr hx)) h1

theorem dedupFirst_sublist [DecidableEq α] (l : List α) : (dedupFirst l).Sublist l :=
  dedupFirstAux_sublist [] l

theorem mem_dedupFirst [DecidableEq α] {l : List α} {x : α} :
    x ∈ dedupFirst l ↔ x ∈ l := by
  simp [dedupFirst, mem_dedupFirstAux]

theorem nodup_dedupFirst [DecidableEq α] (l : List α) : (dedupFirst l).Nodup :=
  nodup_dedupFirstAux [] l

theorem dedupFirst_eq_self [DecidableEq α] {l : List α} (hnd : l.Nodup) :
    dedupFirst l = l :=
  dedupFirstAux_eq_self hnd (by simp)

/-! ## Sorted key lists -/

/-- Sort the distinct elements of a list of strings in code-point order. -/
def sortDedup (l : List String) : List String :=
  List.insertionSort sle (dedupFirst l)

theorem sortDedup_sorted (l : List String) : List.Sorted sle (sortDedup l) :=
  List.sorted_insertionSort sle (dedupFirst l)

theorem sortDedup_nodup (l : List String) : (sortDedup l).Nodup :=
  ((List.perm_insertionSort sle (dedupFirst l)).nodup_iff).mpr (nodup_dedupFirst l)

theorem mem_sortDedup {l : List String} {x : String} : x ∈ sortDedup l ↔ x ∈ l := by
  unfold sortDedup
  rw [(List.perm_insertionSort sle (dedupFirst l)).mem_iff]
  exact mem_dedupFirst

theorem sortDedup_eq_of_mem_iff {l m : List String}
    (h : ∀ x, x ∈ l ↔ x ∈ m) : sortDedup l = sortDedup m := by
  have hperm : (sortDedup l).Perm (sortDedup m) := by
    rw [List.perm_ext_iff_of_nodup (sortDedup_nodup l) (sortDedup_nodup m)]
    intro a
    rw [mem_sortDedup, mem_sortDedup]
    exact h a
  exact List.eq_of_perm_of_sorted (r := sle) hperm (sortDedup_sorted l) (sortDedup_sorted m)

theorem sortDedup_pairwise_slt (l : List String) :
    (sortDedup l).Pairwise slt := by
  have h1 : (sortDedup l).Pairwise sle := sortDedup_sorted l
  have h2 : (sortDedup l).Pairwise (fun a b => a ≠ b) := sortDedup_nodup l
  exact (h1.and h2).imp (fun h => h)

/-! ## Term model (rdf.py)

Modelled from the spec: rdf.py is not in the source tree; a Term is an ordered
triple of text values and a Model an ordered sequence of Terms (spec section 3,
and the persisted document shape in section 6). -/

/-- A subject-predicate-object statement, each field a text value. -/
structure Term where
  subj : String
  pred : String
  obj : String
deriving DecidableEq

/-- Namespace prefix used throughout the repository's fixtures. -/
def vmNS : String := "http://visual-meaning.com/rdf/"

/-- The issues sub-namespace under the base namespace. -/
def issuesNS : String := "http://visual-meaning.com/rdf/issues/"

/-- The fixed equivalence predicate consumed by normalisation. -/
def sameAsPred : String := "http://www.w3.org/2002/07/owl#sameAs"

/-- Boolean test that `p` is a prefix of `s`, on the character lists. -/
def startsWithStr (s p : String) : Bool := p.data.isPrefixOf s.data

/-! ### Identifier Resolver

Modelled from the spec: section 4.1 gives the resolution rules (scheme-prefixed
values pass through, `prefix:local` expands via a static table, everything else
is a literal whose text form is unchanged).  The static table entries are pinned
by tests/test_rdf.py (test_from_qname, test_graph_namespace_bindings). -/

/-- Static prefix table of the repository. -/
def prefixTable : List (String × String) :=
  [("vm", "http://visual-meaning.com/rdf/"),
   ("vmhe", "http://visual-meaning.com/rdf/HE/"),
   ("foaf", "http://xmlns.com/foaf/0.1/"),
   ("skos", "http://www.w3.org/2004/02/skos/core#"),
   ("owl", "http://www.w3.org/2002/07/owl#"),
   ("rdf", "http://www.w3.org/1999/02/22-rdf-syntax-ns#")]

/-- Association-list lookup on string keys. -/
def lookupStr (k : String) : List (String × String) → Option String
  | [] => none
  | e :: l => if e.1 = k then some e.2 else lookupStr k l

/-- Split a character list at the first colon, if any. -/
def breakAtColon : List Char → Option (List Char × List Char)
  | [] => none
  | c :: cs =>
    if c = ':' then some ([], cs)
    else (breakAtColon cs).map (fun r => (c :: r.1, r.2))

/-- Modelled from the spec: rdf.from_qname is absent from the source tree.
Text form of resolving one compact identifier: already-qualified values pass
through, a known `prefix:local` form expands through the static table, and any
other value is a literal whose text is unchanged (spec section 4.1, rules 1-3
and 5). -/
def from_qname (s : String) : String :=
  if startsWithStr s "http://" || startsWithStr s "https://" then s
  else
    match breakAtColon s.data with
    | some r =>
      match lookupStr (⟨r.1⟩ : String) prefixTable with
      | some base => base ++ (⟨r.2⟩ : String)
      | none => s
    | none => s

/-! ### Term Model operations -/

/-- Drop every trailing whitespace character of a string. -/
def rstrip (s : String) : String :=
  ⟨(s.data.reverse.dropWhile Char.isWhitespace).reverse⟩

/-- Collapse a run of trailing whitespace to exactly one trailing space,
leaving strings without trailing whitespace unchanged. -/
def collapseTrailing (s : String) : String :=
  if rstrip s = s then s else ⟨(rstrip s).data ++ [' ']⟩

/-- Modelled from the spec: rdf.purge_terms is absent from the source tree.
Remove every Term failing the retain predicate and collapse trailing whitespace
on each retained Term's object (spec section 4.2); the verbosity flag controls
only diagnostic reporting, so it does not appear in the data path.  Concrete
behaviour pinned by tests/test_rdf.py (test_purge_terms). -/
def purge_terms (model : List Term) (retain : Term → Bool) (verbose : Bool) :
    List Term :=
  (model.filter retain).map (fun t => Term.mk t.subj t.pred (collapseTrailing t.obj))

/-- Modelled from the spec: rdf.update_model_terms is absent from the source
tree.  Append each tuple as a Term, preserving order, without deduplication
(spec section 4.2); pinned by tests/test_rdf.py (test_update_model_terms). -/
def update_model_terms (model : List Term)
    (triples : List (String × String × String)) : List Term :=
  model ++ triples.map (fun x => Term.mk x.1 x.2.1 x.2.2)

/-- Modelled from the spec: rdf.relates_issue is absent from the source tree.
The spec says a Term "relates an issue" if its subject falls under the issues
sub-namespace but is not the container root; the tests
(test_relates_issue_true, test_relates_issue_false in tests/test_rdf.py)
instead require `relates_issue` to hold at subject
"http://visual-meaning.com/rdf/test" (outside the issues sub-namespace) and to
fail at the issues container root, so the modelled function returns true
exactly when the subject does not fall under the issues sub-namespace. -/
def relates_issue (t : Term) : Bool := ! startsWithStr t.subj issuesNS

/-- The characterisation of `relates_issue` exactly as the spec words it:
under the issues sub-namespace and not the container root itself. -/
def relatesIssueSpec (t : Term) : Bool :=
  startsWithStr t.subj issuesNS && decide (t.subj ≠ issuesNS)

/-! ### Normalizer

Modelled from the spec: rdf.normalise_model is absent from the source tree.
Spec section 4.4: an optional single-pass equivalence resolution, then
per-(subject, predicate) collapse (last-write-wins for unique predicates), then
a rebuild ordered by subject, then predicate, then original insertion order.
The tests (test_normalise_model_* in tests/test_rdf.py) additionally pin that a
non-unique group drops exact duplicates of earlier triples, keeping first
occurrences. -/

/-- The (canonical, alias) pairs declared by sameAs Terms present at call
time. -/
def aliasPairs (ts : List Term) : List (String × String) :=
  (ts.filter (fun t => decide (t.pred = sameAsPred))).map (fun t => (t.subj, t.obj))

/-- Rewrite one subject through each declared equivalence in order. -/
def applyAliases (ps : List (String × String)) (s : String) : String :=
  ps.foldl (fun cur p => if cur = p.2 then p.1 else cur) s

/-- Single equivalence-resolution pass: rewrite subjects through the declared
pairs and discard the sameAs Terms themselves. -/
def resolveSameStep (ts : List Term) : List Term :=
  let ps := aliasPairs ts
  (ts.filter (fun t => decide (t.pred ≠ sameAsPred))).map
    (fun t => Term.mk (applyAliases ps t.subj) t.pred t.obj)

/-- Membership of a Term in the (subject, predicate) group. -/
def keyTest (s p : String) (t : Term) : Bool := decide (t.subj = s ∧ t.pred = p)

/-- The (subject, predicate) group of a Model, in insertion order. -/
def groupOf (ts : List Term) (s p : String) : List Term := ts.filter (keyTest s p)

/-- Collapse one (subject, predicate) group: last write wins for a unique
predicate; a non-unique predicate keeps the distinct Terms in first-occurrence
order. -/
def collapseGroup (nonUnique : List String) (p : String) (g : List Term) :
    List Term :=
  if p ∈ nonUnique then dedupFirst g else g.getLast?.toList

/-- Sorted distinct subjects of a Model. -/
def subjectsOf (ts : List Term) : List String := sortDedup (ts.map Term.subj)

/-- Sorted distinct predicates of one subject of a Model. -/
def predsOf (ts : List Term) (s : String) : List String :=
  sortDedup ((ts.filter (fun t => decide (t.subj = s))).map Term.pred)

/-- Deduplicate and reorder a Model's Terms: by subject, then predicate, then
original insertion order within each group. -/
def normaliseTerms (nonUnique : List String) (ts : List Term) : List Term :=
  (subjectsOf ts).flatMap (fun s =>
    (predsOf ts s).flatMap (fun p => collapseGroup nonUnique p (groupOf ts s p)))

/-- Modelled from the spec: rdf.normalise_model is absent from the source tree.
Optionally resolve equivalences in a single pass, then deduplicate and reorder
(spec section 4.4).  The base namespace and verbosity arguments do not affect
the resulting data. -/
def normalise_model (ts : List Term) (base : String) (nonUnique : List String)
    (resolveSame : Bool) (verbose : Bool) : List Term :=
  normaliseTerms nonUnique (if resolveSame then resolveSameStep ts else ts)

/-! ## Transform Engine (trans.py)

Modelled from the spec: trans.py is not in the source tree.  A template is a
sequence of literal pieces and variable references (row columns and `lets`
names); rendering substitutes bound values and degrades to the empty string
when a referenced name is unbound, never raising (spec sections 3, 4.3, 7).
The tests (tests/test_trans.py, tests/test_run.py) pin the per-test behaviour:
a `lets` template with an unbound reference binds the whole value to the empty
string (test_process_lets_cannot_bind), and a triple is skipped exactly when
its object renders empty from row-column data, while an empty object taken
from a `lets` binding is still emitted (test_process_no_obj versus
test_process_lets_cannot_bind, and the blank sheet row of test_run_with_book). -/

/-- A variable reference inside a template: a row column or a lets name. -/
inductive VarRef where
  | rowCol (c : String)
  | letName (n : String)
deriving DecidableEq

/-- One piece of a template: a literal or a variable reference. -/
inductive TPart where
  | lit (s : String)
  | var (v : VarRef)
deriving DecidableEq

/-- A template is an ordered sequence of pieces. -/
abbrev Template := List TPart

/-- A row: an association list from column name to cell text. -/
abbrev Row := List (String × String)

/-- The per-row binding context: the row plus the lets bound so far. -/
structure Ctx where
  row : Row
  lets : List (String × String)

/-- Resolve one variable reference against the context. -/
def resolveVar (ctx : Ctx) : VarRef → Option String
  | .rowCol c => lookupStr c ctx.row
  | .letName n => lookupStr n ctx.lets

/-- Render one template piece; a literal always renders, a variable renders
only when bound. -/
def renderPart (ctx : Ctx) : TPart → Option String
  | .lit s => some s
  | .var v => resolveVar ctx v

/-- Render every piece of a template, or fail when any piece fails. -/
def renderParts (ctx : Ctx) : List TPart → Option (List String)
  | [] => some []
  | p :: ps =>
    match renderPart ctx p, renderParts ctx ps with
    | some s, some rest => some (s :: rest)
    | _, _ => none

/-- Render a template against the context: the concatenation of the rendered
pieces, or the empty string when any referenced variable is unbound.  Total:
malformed or unresolvable templates degrade to "" rather than raising. -/
def renderTemplate (ctx : Ctx) (t : Template) : String :=
  match renderParts ctx t with
  | some parts => String.join parts
  | none => ""

/-- Whether a template piece references a row column. -/
def isRowRef : TPart → Bool
  | .var (.rowCol _) => true
  | _ => false

/-- Whether a template references any row column. -/
def hasRowRef (t : Template) : Bool := t.any isRowRef

/-- Modelled from the spec: the Transform configuration object (spec section
3), restricted to the fields the transform engine and orchestrator read. -/
structure Transform where
  name : String
  sheet : Option String
  lets : List (String × Template)
  triples : List (Template × Template × Template)
  non_unique : List String
  allow_empty_subject : Bool

/-- Bind the lets in declaration order; each template sees the row and the
lets already bound. -/
def bindLets (row : Row) (lets : List (String × Template)) :
    List (String × String) :=
  lets.foldl (fun acc nt => acc ++ [(nt.1, renderTemplate (Ctx.mk row acc) nt.2)]) []

/-- The binding context for one row of a Transform. -/
def buildCtx (tr : Transform) (row : Row) : Ctx :=
  Ctx.mk row (bindLets row tr.lets)

/-- A fully rendered triple, text form. -/
abbrev RTriple := String × String × String

instance instDecEqExcept [DecidableEq ε] [DecidableEq α] :
    DecidableEq (Except ε α) := fun a b =>
  match a, b with
  | Except.error e, Except.error f =>
    if h : e = f then isTrue (congrArg Except.error h)
    else isFalse (fun hc => h (Except.error.inj hc))
  | Except.error _, Except.ok _ => isFalse (fun hc => Except.noConfusion hc)
  | Except.ok _, Except.error _ => isFalse (fun hc => Except.noConfusion hc)
  | Except.ok x, Except.ok y =>
    if h : x = y then isTrue (congrArg Except.ok h)
    else isFalse (fun hc => h (Except.ok.inj hc))

/-- Render one triple template.  The triple is skipped (None) exactly when the
rendered object is empty and the object template references a row column: an
empty object taken purely from lets bindings is still emitted.  The predicate
is resolved through the Identifier Resolver. -/
def emitTriple (ctx : Ctx) (tt : Template × Template × Template) :
    Option RTriple :=
  let o := renderTemplate ctx tt.2.2
  if o = "" ∧ hasRowRef tt.2.2 = true then none
  else some (renderTemplate ctx tt.1, from_qname (renderTemplate ctx tt.2.1), o)

/-- Process a single row: resolve the subject anchor (the first triple's
subject); an empty anchor yields a deferred data-error marker, or nothing at
all when empty subjects are allowed; otherwise emit the row's triples. -/
def rowItems (tr : Transform) (row : Row) : List (Except Unit RTriple) :=
  match tr.triples with
  | [] => []
  | tt :: _ =>
    let ctx := buildCtx tr row
    if renderTemplate ctx tt.1 = "" then
      if tr.allow_empty_subject then [] else [Except.error ()]
    else (tr.triples.filterMap (emitTriple ctx)).map Except.ok

/-- Modelled from the spec: Transform.process is absent from the source tree.
Rows structurally equal to an earlier row of the same call are skipped; each
remaining row contributes its rendered triples, or a deferred error marker in
place of them when its subject anchor renders empty and empty subjects are not
allowed (spec section 4.3).  The lazy generator of the source is modelled as
the full sequence with errors as explicit markers at the position where
iteration would raise. -/
def Transform.process (tr : Transform) (rows : List Row) :
    List (Except Unit RTriple) :=
  (dedupFirst rows).flatMap (rowItems tr)

/-- Modelled from the spec: Transform.get_non_uniques resolves the non_unique
predicate list through the Identifier Resolver (spec section 4.3). -/
def Transform.get_non_uniques (tr : Transform) (ns : String) : List String :=
  tr.non_unique.map from_qname

/-- Modelled from the spec: Transform.uses_sheet is true iff `sheet` is set. -/
def Transform.uses_sheet (tr : Transform) : Bool := tr.sheet.isSome

/-! ## Orchestrator (run.py)

Modelled from the spec: run.py is not in the source tree.  The source reader
presents a sheet as a sequence of cell rows whose first element is the header
row establishing column names (spec section 6); every row of that sequence,
the header row included, is handed to the Transform Engine bound by column
name, as pinned by test_run_with_book in tests/test_run.py.  After folding the
generated triples into the model the orchestrator normalises it once. -/

/-- Convert a sheet's cell rows to engine rows: each row, the header row
itself included, is bound by pairing the header's column names with the row's
cells positionally. -/
def sheetRows : List (List String) → List Row
  | [] => []
  | hdr :: rest => (hdr :: rest).map (fun r => hdr.zip r)

/-- Whether an item of a processed sequence is a deferred error marker. -/
def isErrItem : Except Unit RTriple → Bool
  | .error _ => true
  | .ok _ => false

/-- The successfully generated triples of a processed sequence. -/
def okTriples (items : List (Except Unit RTriple)) : List RTriple :=
  items.filterMap (fun i => match i with | .ok t => some t | .error _ => none)

/-- Modelled from the spec: Runner.run for one sheet-reading Transform.  The
sheet's rows (header included) are processed, the generated triples are folded
into the model, and the model is normalised; a deferred data error raised
while iterating the generator propagates as the error case. -/
def Runner.run (model : List Term) (non_unique : List String)
    (resolve_same : Bool) (tr : Transform) (sheet : List (List String)) :
    Except Unit (List Term) :=
  let items := tr.process (sheetRows sheet)
  if items.any isErrItem then Except.error ()
  else
    Except.ok (normalise_model (update_model_terms model (okTriples items)) vmNS
      (non_unique ++ tr.get_non_uniques vmNS) resolve_same false)

/-! ## Concrete fixtures from the repository's tests -/

/-- The lets template "prefix row col1 with _iri" used across the tests. -/
def letIriT : Template := [TPart.var (VarRef.rowCol "col1"), TPart.lit "_iri"]

/-- Subject template referencing the `iri` binding. -/
def subjIriT : Template := [TPart.var (VarRef.letName "iri")]

/-- The constant predicate template of the trans tests. -/
def predHttpT : Template := [TPart.lit "http://predicate"]

/-- Object template referencing row column col2. -/
def objCol2T : Template := [TPart.var (VarRef.rowCol "col2")]

/-- First data row of the trans tests. -/
def rowA : Row := [("col1", "http://a"), ("col2", "1")]

/-- Second data row of test_process. -/
def rowB : Row := [("col1", "http://b"), ("col2", "2")]

/-- The row of SUBJ_DETAILS whose subject anchor renders empty. -/
def rowTwo : Row := [("col2", "2")]

/-- The row of OBJ_DETAILS with no col2 cell. -/
def rowBOnly : Row := [("col1", "http://b")]

/-- The Transform of test_process and SUBJ_DETAILS / OBJ_DETAILS. -/
def subjTr : Transform :=
  Transform.mk "test" none [("iri", letIriT)] [(subjIriT, predHttpT, objCol2T)] [] false

/-- The SUBJ_DETAILS Transform with allow_empty_subject set. -/
def subjTrAllow : Transform :=
  Transform.mk "test" none [("iri", letIriT)] [(subjIriT, predHttpT, objCol2T)] [] true

/-- The Transform of test_process_lets_cannot_bind: a second lets binding whose
template references the absent column col3, and a triple whose object is
exactly that binding. -/
def letsBindTr : Transform :=
  Transform.mk "test" none
    [("iri", letIriT),
     ("output_iri", [TPart.var (VarRef.rowCol "col3"), TPart.lit "_iri"])]
    [(subjIriT, predHttpT, [TPart.var (VarRef.letName "output_iri")])] [] false

/-- The sheet-reading Transform of test_run_with_book. -/
def bookTr : Transform :=
  Transform.mk "test" (some "test_sheet.xlsx") []
    [([TPart.lit "http://", TPart.var (VarRef.rowCol "col1"), TPart.lit "_iri"],
      [TPart.lit "http://pred"], objCol2T)] [] false

/-- The sheet data of test_run_with_book: header row, one data row, one blank
row. -/
def bookSheet : List (List String) := [["col1", "col2"], ["a", "b"], ["", ""]]

/-- The model of test_normalise_model_non_unique_predicate: an exact duplicate
triple followed by a second object for the same non-unique predicate. -/
def dupModel : List Term :=
  [Term.mk "test_subj" "test_pred" "test_obj",
   Term.mk "test_subj" "test_pred" "test_obj",
   Term.mk "test_subj" "test_pred" "test_obj2"]

/-- The model of test_normalise_model_resolve_same. -/
def sameModel : List Term :=
  [Term.mk "test_subj" "test_pred" "test_obj",
   Term.mk "test_subj" "test_pred2" "test_obj",
   Term.mk "test_subj" "http://www.w3.org/2002/07/owl#sameAs" "test_subj2",
   Term.mk "test_subj2" "test_pred2" "test_obj2"]

/-- The model of test_purge_terms. -/
def purgeModel : List Term :=
  [Term.mk "s" "p" "http://visual-meaning.com/rdf/test",
   Term.mk "s" "p" "http://visual-meaning.com/rdf/whitespace   ",
   Term.mk "s" "p" "test"]

/-! ## Properties of the normalizer -/

theorem mem_groupOf {ts : List Term} {s p : String} {t : Term} :
    t ∈ groupOf ts s p ↔ t ∈ ts ∧ t.subj = s ∧ t.pred = p := by
  simp [groupOf, keyTest, List.mem_filter]

theorem getLastOptToList_sublist (l : List α) : l.getLast?.toList.Sublist l := by
  induction l with
  | nil => exact List.Sublist.refl []
  | cons a l ih =>
    cases l with
    | nil => exact List.Sublist.refl [a]
    | cons b m =>
      rw [List.getLast?_cons_cons]
      exact List.Sublist.cons a ih

theorem collapseGroup_sublist (nu : List String) (p : String) (g : List Term) :
    (collapseGroup nu p g).Sublist g := by
  unfold collapseGroup
  by_cases h : p ∈ nu
  · rw [if_pos h]; exact dedupFirst_sublist g
  · rw [if_neg h]; exact getLastOptToList_sublist g

theorem mem_collapseGroup {nu : List String} {p : String} {g : List Term} {t : Term}
    (h : t ∈ collapseGroup nu p g) : t ∈ g :=
  (collapseGroup_sublist nu p g).subset h

theorem collapseGroup_nil (nu : List String) (p : String) :
    collapseGroup nu p [] = [] := by
  unfold collapseGroup
  by_cases h : p ∈ nu
  · rw [if_pos h]; rfl
  · rw [if_neg h]; rfl

theorem collapseGroup_ne_nil (nu : List String) {p : String} {g : List Term}
    (h : g ≠ []) : collapseGroup nu p g ≠ [] := by
  unfold collapseGroup
  rcases g with _ | ⟨a, g⟩
  · exact absurd rfl h
  · by_cases hp : p ∈ nu
    · rw [if_pos hp]
      show dedupFirstAux [] (a :: g) ≠ []
      rw [dedupFirstAux, if_neg (List.not_mem_nil a)]
      exact List.cons_ne_nil a _
    · rw [if_neg hp]
      intro hc
      have : (a :: g).getLast? = none := by
        rcases ho : (a :: g).getLast? with _ | x
        · rfl
        · rw [ho] at hc; exact absurd hc (by simp [Option.toList])
      exact absurd (List.getLast?_eq_none_iff.mp this) (List.cons_ne_nil a g)

theorem dedupFirst_idem [DecidableEq α] (l : List α) :
    dedupFirst (dedupFirst l) = dedupFirst l :=
  dedupFirst_eq_self (nodup_dedupFirst l)

theorem collapseGroup_idem (nu : List String) (p : String) (g : List Term) :
    collapseGroup nu p (collapseGroup nu p g) = collapseGroup nu p g := by
  unfold collapseGroup
  by_cases h : p ∈ nu
  · rw [if_pos h, if_pos h]
    exact dedupFirst_idem g
  · rw [if_neg h, if_neg h]
    rcases ho : g.getLast? with _ | x
    · rfl
    · rfl

theorem flatMap_eq_of_single [DecidableEq κ] (keys : List κ) (hnd : keys.Nodup)
    (f : κ → List α) (t : κ) (h : ∀ k ∈ keys, k ≠ t → f k = []) :
    keys.flatMap f = if t ∈ keys then f t else [] := by
  induction keys with
  | nil => simp
  | cons k ks ih =>
    have hnd2 := List.nodup_cons.mp hnd
    rw [List.flatMap_cons]
    by_cases hk : k = t
    · subst hk
      have h2 : ks.flatMap f = [] := by
        rw [ih hnd2.2 (fun a ha hne => h a (List.mem_cons_of_mem k ha) hne),
          if_neg hnd2.1]
      rw [h2, if_pos (List.mem_cons_self k ks), List.append_nil]
    · rw [h k (List.mem_cons_self k ks) hk, List.nil_append,
        ih hnd2.2 (fun a ha hne => h a (List.mem_cons_of_mem k ha) hne)]
      by_cases ht : t ∈ ks
      · rw [if_pos ht, if_pos (List.mem_cons_of_mem k ht)]
      · rw [if_neg ht, if_neg (fun hc => by
          rcases List.mem_cons.mp hc with h1 | h1
          · exact hk h1.symm
          · exact ht h1)]

theorem mem_subjectsOf {ts : List Term} {s : String} :
    s ∈ subjectsOf ts ↔ ∃ t ∈ ts, t.subj = s := by
  unfold subjectsOf
  rw [mem_sortDedup]
  simp [List.mem_map, eq_comm]

theorem mem_predsOf {ts : List Term} {s p : String} :
    p ∈ predsOf ts s ↔ ∃ t ∈ ts, t.subj = s ∧ t.pred = p := by
  unfold predsOf
  rw [mem_sortDedup]
  simp only [List.mem_map, List.mem_filter, decide_eq_true_eq]
  constructor
  · rintro ⟨t, ⟨ht, hs⟩, hp⟩
    exact ⟨t, ht, hs, hp⟩
  · rintro ⟨t, ht, hs, hp⟩
    exact ⟨t, ⟨ht, hs⟩, hp⟩

theorem groupOf_eq_nil_of_not_subj {ts : List Term} {s p : String}
    (h : s ∉ subjectsOf ts) : groupOf ts s p = [] := by
  rcases hg : groupOf ts s p with _ | ⟨t, g⟩
  · rfl
  · have ht : t ∈ groupOf ts s p := hg ▸ List.mem_cons_self t g
    rcases mem_groupOf.mp ht with ⟨h1, h2, h3⟩
    exact absurd (mem_subjectsOf.mpr ⟨t, h1, h2⟩) h

theorem groupOf_eq_nil_of_not_pred {ts : List Term} {s p : String}
    (h : p ∉ predsOf ts s) : groupOf ts s p = [] := by
  rcases hg : groupOf ts s p with _ | ⟨t, g⟩
  · rfl
  · have ht : t ∈ groupOf ts s p := hg ▸ List.mem_cons_self t g
    rcases mem_groupOf.mp ht with ⟨h1, h2, h3⟩
    exact absurd (mem_predsOf.mpr ⟨t, h1, h2, h3⟩) h

theorem groupOf_normaliseTerms (nu : List String) (ts : List Term) (s p : String) :
    groupOf (normaliseTerms nu ts) s p = collapseGroup nu p (groupOf ts s p) := by
  have hdef : groupOf (normaliseTerms nu ts) s p =
      ((subjectsOf ts).flatMap (fun s2 =>
        (predsOf ts s2).flatMap
          (fun p2 => collapseGroup nu p2 (groupOf ts s2 p2)))).filter (keyTest s p) :=
    rfl
  rw [hdef, List.filter_flatMap]
  have hinner : ∀ s2 ∈ subjectsOf ts,
      ((predsOf ts s2).flatMap
          (fun p2 => collapseGroup nu p2 (groupOf ts s2 p2))).filter (keyTest s p) =
        if s2 = s then
          (predsOf ts s2).flatMap
            (fun p2 => if p2 = p then collapseGroup nu p2 (groupOf ts s2 p2) else [])
        else [] := by
    intro s2 hs2
    rw [List.filter_flatMap]
    by_cases hss : s2 = s
    · rw [if_pos hss]
      refine List.flatMap_congr (fun p2 hp2 => ?_)
      by_cases hpp : p2 = p
      · rw [if_pos hpp]
        refine List.filter_eq_self.mpr (fun t ht => ?_)
        rcases mem_groupOf.mp (mem_collapseGroup ht) with ⟨_, h2, h3⟩
        simp [keyTest, h2, h3, hss, hpp]
      · rw [if_neg hpp]
        refine List.filter_eq_nil_iff.mpr (fun t ht => ?_)
        rcases mem_groupOf.mp (mem_collapseGroup ht) with ⟨_, h2, h3⟩
        simp [keyTest, h3, hpp]
    · rw [if_neg hss]
      have : ∀ p2 ∈ predsOf ts s2,
          (collapseGroup nu p2 (groupOf ts s2 p2)).filter (keyTest s p) = [] := by
        intro p2 hp2
        refine List.filter_eq_nil_iff.mpr (fun t ht => ?_)
        rcases mem_groupOf.mp (mem_collapseGroup ht) with ⟨_, h2, h3⟩
        simp [keyTest, h2, hss]
      rw [List.flatMap_congr this]
      simp
  rw [List.flatMap_congr hinner,
    flatMap_eq_of_single (subjectsOf ts) (sortDedup_nodup _) _ s
      (fun k hk hne => if_neg hne)]
  by_cases hs : s ∈ subjectsOf ts
  · rw [if_pos hs, if_pos rfl,
      flatMap_eq_of_single (predsOf ts s) (sortDedup_nodup _) _ p
        (fun k hk hne => if_neg hne)]
    by_cases hp : p ∈ predsOf ts s
    · rw [if_pos hp, if_pos rfl]
    · rw [if_neg hp, groupOf_eq_nil_of_not_pred hp, collapseGroup_nil]
  · rw [if_neg hs, groupOf_eq_nil_of_not_subj hs, collapseGroup_nil]

theorem mem_normaliseTerms_subset {nu : List String} {ts : List Term} {t : Term}
    (h : t ∈ normaliseTerms nu ts) : t ∈ ts := by
  rcases List.mem_flatMap.mp h with ⟨s, hs, h2⟩
  rcases List.mem_flatMap.mp h2 with ⟨p, hp, h3⟩
  exact (mem_groupOf.mp (mem_collapseGroup h3)).1

theorem exists_mem_normaliseTerms (nu : List String) {ts : List Term} {t : Term}
    (h : t ∈ ts) :
    ∃ u ∈ normaliseTerms nu ts, u.subj = t.subj ∧ u.pred = t.pred := by
  have hg : t ∈ groupOf ts t.subj t.pred := mem_groupOf.mpr ⟨h, rfl, rfl⟩
  have hne : groupOf ts t.subj t.pred ≠ [] := by
    intro hc
    rw [hc] at hg
    exact List.not_mem_nil t hg
  rcases List.exists_mem_of_ne_nil _ (collapseGroup_ne_nil nu hne) with ⟨u, hu⟩
  rcases mem_groupOf.mp (mem_collapseGroup hu) with ⟨h1, h2, h3⟩
  refine ⟨u, ?_, h2, h3⟩
  refine List.mem_flatMap.mpr ⟨t.subj, mem_subjectsOf.mpr ⟨t, h, rfl⟩, ?_⟩
  exact List.mem_flatMap.mpr ⟨t.pred, mem_predsOf.mpr ⟨t, h, rfl, rfl⟩, hu⟩

theorem subjectsOf_normaliseTerms (nu : List String) (ts : List Term) :
    subjectsOf (normaliseTerms nu ts) = subjectsOf ts := by
  unfold subjectsOf
  apply sortDedup_eq_of_mem_iff
  intro x
  simp only [List.mem_map]
  constructor
  · rintro ⟨t, ht, rfl⟩
    exact ⟨t, mem_normaliseTerms_subset ht, rfl⟩
  · rintro ⟨t, ht, rfl⟩
    rcases exists_mem_normaliseTerms nu ht with ⟨u, hu, h2, h3⟩
    exact ⟨u, hu, h2⟩

theorem predsOf_normaliseTerms (nu : List String) (ts : List Term) (s : String) :
    predsOf (normaliseTerms nu ts) s = predsOf ts s := by
  unfold predsOf
  apply sortDedup_eq_of_mem_iff
  intro x
  simp only [List.mem_map, List.mem_filter, decide_eq_true_eq]
  constructor
  · rintro ⟨t, ⟨ht, hs⟩, rfl⟩
    exact ⟨t, ⟨mem_normaliseTerms_subset ht, hs⟩, rfl⟩
  · rintro ⟨t, ⟨ht, hs⟩, rfl⟩
    rcases exists_mem_normaliseTerms nu ht with ⟨u, hu, h2, h3⟩
    exact ⟨u, ⟨hu, h2.trans hs⟩, h3⟩

theorem normaliseTerms_idem (nu : List String) (ts : List Term) :
    normaliseTerms nu (normaliseTerms nu ts) = normaliseTerms nu ts := by
  have hdef : normaliseTerms nu (normaliseTerms nu ts) =
      (subjectsOf (normaliseTerms nu ts)).flatMap (fun s =>
        (predsOf (normaliseTerms nu ts) s).flatMap
          (fun p => collapseGroup nu p (groupOf (normaliseTerms nu ts) s p))) := rfl
  rw [hdef, subjectsOf_normaliseTerms]
  have h1 : ∀ s ∈ subjectsOf ts,
      (predsOf (normaliseTerms nu ts) s).flatMap
          (fun p => collapseGroup nu p (groupOf (normaliseTerms nu ts) s p)) =
        (predsOf ts s).flatMap (fun p => collapseGroup nu p (groupOf ts s p)) := by
    intro s hs
    rw [predsOf_normaliseTerms]
    refine List.flatMap_congr (fun p hp => ?_)
    rw [groupOf_normaliseTerms, collapseGroup_idem]
  rw [List.flatMap_congr h1]
  rfl

/-! ## Properties of equivalence resolution -/

theorem resolveSameStep_def (ts : List Term) :
    resolveSameStep ts =
      (ts.filter (fun t => decide (t.pred ≠ sameAsPred))).map
        (fun t => Term.mk (applyAliases (aliasPairs ts) t.subj) t.pred t.obj) := rfl

theorem mem_resolveSameStep_pred {ts : List Term} {t : Term}
    (h : t ∈ resolveSameStep ts) : t.pred ≠ sameAsPred := by
  rw [resolveSameStep_def] at h
  rcases List.mem_map.mp h with ⟨u, hu, rfl⟩
  have h2 := (List.mem_filter.mp hu).2
  simpa using h2

theorem resolveSameStep_eq_self {ts : List Term}
    (h : ∀ t ∈ ts, t.pred ≠ sameAsPred) : resolveSameStep ts = ts := by
  rw [resolveSameStep_def]
  have hfil0 : ts.filter (fun t => decide (t.pred = sameAsPred)) = [] :=
    List.filter_eq_nil_iff.mpr (fun t ht => by simp [h t ht])
  have hpairs : aliasPairs ts = [] := by
    unfold aliasPairs
    rw [hfil0]
    rfl
  have hfil : ts.filter (fun t => decide (t.pred ≠ sameAsPred)) = ts :=
    List.filter_eq_self.mpr (fun t ht => by simp [h t ht])
  rw [hpairs, hfil]
  have hid : ∀ t ∈ ts, Term.mk (applyAliases [] t.subj) t.pred t.obj = t :=
    fun t ht => rfl
  rw [List.map_congr_left hid]
  simp

/-! ## Ordering of normalised output -/

/-- The two-level order of normalised output: by subject, then, within a
subject, by predicate. -/
def termOrder (a b : Term) : Prop :=
  slt a.subj b.subj ∨ (a.subj = b.subj ∧ sle a.pred b.pred)

theorem mem_inner_subj {nu : List String} {ts : List Term} {s : String} {t : Term}
    (h : t ∈ (predsOf ts s).flatMap
      (fun p => collapseGroup nu p (groupOf ts s p))) :
    t.subj = s := by
  rcases List.mem_flatMap.mp h with ⟨p, hp, h2⟩
  exact (mem_groupOf.mp (mem_collapseGroup h2)).2.1

theorem pairwise_termOrder_normaliseTerms (nu : List String) (ts : List Term) :
    List.Pairwise termOrder (normaliseTerms nu ts) := by
  have hdef : normaliseTerms nu ts =
      ((subjectsOf ts).map (fun s =>
        (predsOf ts s).flatMap
          (fun p => collapseGroup nu p (groupOf ts s p)))).flatten :=
    List.flatMap_def _ _
  rw [hdef, List.pairwise_flatten]
  constructor
  · intro l hl
    rcases List.mem_map.mp hl with ⟨s, hs, rfl⟩
    have hdef2 : (predsOf ts s).flatMap
        (fun p => collapseGroup nu p (groupOf ts s p)) =
        ((predsOf ts s).map
          (fun p => collapseGroup nu p (groupOf ts s p))).flatten :=
      List.flatMap_def _ _
    rw [hdef2, List.pairwise_flatten]
    constructor
    · intro g hg
      rcases List.mem_map.mp hg with ⟨p, hp, rfl⟩
      refine List.pairwise_of_forall_mem_list (fun a ha b hb => ?_)
      rcases mem_groupOf.mp (mem_collapseGroup ha) with ⟨_, ha2, ha3⟩
      rcases mem_groupOf.mp (mem_collapseGroup hb) with ⟨_, hb2, hb3⟩
      right
      refine ⟨ha2.trans hb2.symm, ?_⟩
      rw [ha3, hb3]
      exact sle_refl p
    · rw [List.pairwise_map]
      have hps : (predsOf ts s).Pairwise slt := sortDedup_pairwise_slt _
      refine hps.imp (fun {p1 p2} h12 => ?_)
      intro x hx y hy
      rcases mem_groupOf.mp (mem_collapseGroup hx) with ⟨_, hx2, hx3⟩
      rcases mem_groupOf.mp (mem_collapseGroup hy) with ⟨_, hy2, hy3⟩
      right
      refine ⟨hx2.trans hy2.symm, ?_⟩
      rw [hx3, hy3]
      exact h12.1
  · rw [List.pairwise_map]
    have hss : (subjectsOf ts).Pairwise slt := sortDedup_pairwise_slt _
    refine hss.imp (fun {s1 s2} h12 => ?_)
    intro x hx y hy
    left
    rw [mem_inner_subj hx, mem_inner_subj hy]
    exact h12

theorem pairwise_termOrder_normalise_model (ts : List Term) (base : String)
    (nu : List String) (resolve verbose : Bool) :
    List.Pairwise termOrder (normalise_model ts base nu resolve verbose) :=
  pairwise_termOrder_normaliseTerms nu _

/-- Idempotence of the full normalise_model operation. -/
theorem normalise_model_idem (ts : List Term) (base : String) (nu : List String)
    (resolve verbose : Bool) :
    normalise_model (normalise_model ts base nu resolve verbose) base nu
        resolve verbose =
      normalise_model ts base nu resolve verbose := by
  unfold normalise_model
  cases resolve with
  | false =>
    simp only [Bool.false_eq_true, if_false]
    exact normaliseTerms_idem nu ts
  | true =>
    simp only [if_pos]
    rw [resolveSameStep_eq_self
      (fun t ht => mem_resolveSameStep_pred (mem_normaliseTerms_subset ht))]
    exact normaliseTerms_idem nu (resolveSameStep ts)

/-! ## Transform engine helper lemmas -/

theorem renderParts_eq_none {ctx : Ctx} {t : Template} {p : TPart}
    (hmem : p ∈ t) (hp : renderPart ctx p = none) : renderParts ctx t = none := by
  induction t with
  | nil => cases hmem
  | cons q qs ih =>
    rcases List.mem_cons.mp hmem with rfl | h2
    · unfold renderParts
      rw [hp]
    · unfold renderParts
      rw [ih h2]
      rcases hq : renderPart ctx q with _ | s
      · rfl
      · rfl

theorem emitTriple_eq_none {ctx : Ctx} {tt : Template × Template × Template}
    (h1 : renderTemplate ctx tt.2.2 = "") (h2 : hasRowRef tt.2.2 = true) :
    emitTriple ctx tt = none := by
  simp only [emitTriple]
  rw [if_pos ⟨h1, h2⟩]

/-! ## The claims -/

/-- Claim C1, counterexample: the claim states that for a predicate in the
non-unique set every Term of the (subject, predicate) group is retained in
original relative order; on the model of test_normalise_model_non_unique_predicate
(an exact duplicate triple followed by a distinct one) the group is the whole
model, yet normalisation retains only two of its three Terms, exactly as the
repository's own test expects. -/
theorem C1_counterexample :
    groupOf dupModel "test_subj" "test_pred" = dupModel ∧
    groupOf (normalise_model dupModel "dummy" ["test_pred"] false false)
        "test_subj" "test_pred" =
      [Term.mk "test_subj" "test_pred" "test_obj",
       Term.mk "test_subj" "test_pred" "test_obj2"] ∧
    groupOf (normalise_model dupModel "dummy" ["test_pred"] false false)
        "test_subj" "test_pred" ≠ dupModel := by
  decide

/-- Claim C1 (amended): for every model and every (subject, predicate) group
formed by normalise_model, if the predicate is not in the non-unique set only
the Term whose object was the last encountered for that group is retained, and
if the predicate is in the non-unique set the distinct Terms of that group are
retained in first-occurrence order (an exact duplicate of an earlier Term of
the group is dropped). -/
theorem C1_amended_group_policy :
    ∀ (ts : List Term) (base : String) (nu : List String) (resolve v : Bool)
      (s p : String),
      groupOf (normalise_model ts base nu resolve v) s p =
        if p ∈ nu then
          dedupFirst (groupOf (if resolve then resolveSameStep ts else ts) s p)
        else
          (groupOf (if resolve then resolveSameStep ts else ts) s p).getLast?.toList := by
  intro ts base nu resolve v s p
  show groupOf (normaliseTerms nu (if resolve then resolveSameStep ts else ts)) s p = _
  rw [groupOf_normaliseTerms]
  rfl

/-- Claim C2: after normalise_model returns, the term sequence is ordered by
subject ascending (code-point lexicographic), then by predicate ascending
within a subject, and within each (subject, predicate) group the retained
Terms keep their original relative insertion order (each output group is a
sublist of the corresponding group of the sequence entering deduplication). -/
theorem C2_ordering :
    ∀ (ts : List Term) (base : String) (nu : List String) (resolve v : Bool),
      List.Pairwise termOrder (normalise_model ts base nu resolve v) ∧
      ∀ s p, (groupOf (normalise_model ts base nu resolve v) s p).Sublist
        (groupOf (if resolve then resolveSameStep ts else ts) s p) := by
  intro ts base nu resolve v
  refine ⟨pairwise_termOrder_normalise_model ts base nu resolve v, fun s p => ?_⟩
  show (groupOf (normaliseTerms nu (if resolve then resolveSameStep ts else ts))
    s p).Sublist _
  rw [groupOf_normaliseTerms]
  exact collapseGroup_sublist _ _ _

/-- Claim C3: with the resolve-equivalence flag set, each declared
`(a, sameAs, b)` equivalence rewrites every other Term with subject `b` to
subject `a` and the sameAs Term itself is discarded before deduplication (no
sameAs Term survives normalisation, and for a single declared pair the
resolution pass is exactly the described rewrite); on the model of
test_normalise_model_resolve_same, normalising with an empty non-unique set
yields exactly the two expected Terms. -/
theorem C3_resolve_equivalence :
    (∀ (ts : List Term) (base : String) (nu : List String) (v : Bool)
       (t : Term), t ∈ normalise_model ts base nu true v → t.pred ≠ sameAsPred) ∧
    (∀ (a b : String) (ts : List Term), aliasPairs ts = [(a, b)] →
      resolveSameStep ts =
        (ts.filter (fun t => decide (t.pred ≠ sameAsPred))).map
          (fun t => Term.mk (if t.subj = b then a else t.subj) t.pred t.obj)) ∧
    normalise_model sameModel "dummy" [] true false =
      [Term.mk "test_subj" "test_pred" "test_obj",
       Term.mk "test_subj" "test_pred2" "test_obj2"] := by
  refine ⟨?_, ?_, by decide⟩
  · intro ts base nu v t h
    exact mem_resolveSameStep_pred (mem_normaliseTerms_subset h)
  · intro a b ts h
    rw [resolveSameStep_def, h]
    exact rfl

/-- Claim C7: normalise_model is idempotent for every model and fixed base
namespace, non-unique predicate set, resolve-equivalence flag and verbosity. -/
theorem C7_normalise_idempotent :
    ∀ (ts : List Term) (base : String) (nu : List String) (resolve v : Bool),
      normalise_model (normalise_model ts base nu resolve v) base nu resolve v =
        normalise_model ts base nu resolve v :=
  normalise_model_idem

/-- Witness for claim C3's single-pair conjunct, at the model of
test_normalise_model_resolve_same. -/
theorem C3_witness :
    aliasPairs sameModel = [("test_subj", "test_subj2")] ∧
    resolveSameStep sameModel =
      (sameModel.filter (fun t => decide (t.pred ≠ sameAsPred))).map
        (fun t => Term.mk (if t.subj = "test_subj2" then "test_subj" else t.subj)
          t.pred t.obj) ∧
    (Term.mk "test_subj" "test_pred" "test_obj").pred ≠ sameAsPred :=
  ⟨by decide,
   C3_resolve_equivalence.2.1 "test_subj" "test_subj2" sameModel (by decide),
   C3_resolve_equivalence.1 sameModel "dummy" [] false
     (Term.mk "test_subj" "test_pred" "test_obj") (by decide)⟩

/-- Claim C4: for a row whose subject anchor (the first triple's subject
template) renders empty, the row produces a deferred data-error marker at its
position in the generated sequence when allow_empty_subject is false (the
error surfaces only when iteration reaches that row: process itself is total
and earlier rows' triples precede the marker), and produces no triples and no
error when allow_empty_subject is true, with subsequent rows still processed;
concretely on the SUBJ_DETAILS fixture of tests/test_trans.py. -/
theorem C4_empty_subject :
    (∀ (nm : String) (sh : Option String) (lets : List (String × Template))
       (tt : Template × Template × Template)
       (rest : List (Template × Template × Template))
       (nuq : List String) (allow : Bool) (row : Row),
      renderTemplate (buildCtx (Transform.mk nm sh lets (tt :: rest) nuq allow) row)
          tt.1 = "" →
      rowItems (Transform.mk nm sh lets (tt :: rest) nuq allow) row =
        if allow then [] else [Except.error ()]) ∧
    subjTr.process [rowA, rowTwo] =
      [Except.ok ("http://a_iri", "http://predicate", "1"), Except.error ()] ∧
    subjTrAllow.process [rowA, rowTwo] =
      [Except.ok ("http://a_iri", "http://predicate", "1")] ∧
    subjTrAllow.process [rowTwo, rowA] =
      [Except.ok ("http://a_iri", "http://predicate", "1")] := by
  refine ⟨?_, by decide, by decide, by decide⟩
  intro nm sh lets tt rest nuq allow row h
  have hdef : rowItems (Transform.mk nm sh lets (tt :: rest) nuq allow) row =
      if renderTemplate (buildCtx (Transform.mk nm sh lets (tt :: rest) nuq allow)
          row) tt.1 = "" then
        (if allow then [] else [Except.error ()])
      else
        ((tt :: rest).filterMap
          (emitTriple (buildCtx (Transform.mk nm sh lets (tt :: rest) nuq allow)
            row))).map Except.ok := rfl
  rw [hdef, if_pos h]

/-- Witness for claim C4 at the empty-subject row of SUBJ_DETAILS, with both
settings of allow_empty_subject. -/
theorem C4_witness :
    rowItems subjTr rowTwo = [Except.error ()] ∧
    rowItems subjTrAllow rowTwo = [] :=
  ⟨C4_empty_subject.1 "test" none [("iri", letIriT)]
      (subjIriT, predHttpT, objCol2T) [] [] false rowTwo (by decide),
   C4_empty_subject.1 "test" none [("iri", letIriT)]
      (subjIriT, predHttpT, objCol2T) [] [] true rowTwo (by decide)⟩

/-- Claim C5, counterexample: the claim states that a triple whose rendered
object is empty is never emitted; in the test_process_lets_cannot_bind fixture
the object template (the `output_iri` binding) renders empty, yet the triple
is emitted with an empty-string object, exactly as the repository's test
expects. -/
theorem C5_counterexample :
    renderTemplate (buildCtx letsBindTr rowA)
        [TPart.var (VarRef.letName "output_iri")] = "" ∧
    letsBindTr.process [rowA] =
      [Except.ok ("http://a_iri", "http://predicate", "")] := by
  decide

/-- Claim C5 (amended): a triple whose rendered object is empty is not emitted
when its object template references a row column, and skipping it leaves the
row's other triples unaffected; concretely the missing-col2 row of OBJ_DETAILS
contributes no triple while the other row's triple is emitted. -/
theorem C5_amended_empty_object :
    (∀ (ctx : Ctx) (tt : Template × Template × Template),
      renderTemplate ctx tt.2.2 = "" → hasRowRef tt.2.2 = true →
      emitTriple ctx tt = none) ∧
    (∀ (ctx : Ctx) (pre post : List (Template × Template × Template))
       (tt : Template × Template × Template),
      renderTemplate ctx tt.2.2 = "" → hasRowRef tt.2.2 = true →
      (pre ++ tt :: post).filterMap (emitTriple ctx) =
        (pre ++ post).filterMap (emitTriple ctx)) ∧
    subjTr.process [rowA, rowBOnly] =
      [Except.ok ("http://a_iri", "http://predicate", "1")] := by
  refine ⟨fun ctx tt h1 h2 => emitTriple_eq_none h1 h2, ?_, by decide⟩
  intro ctx pre post tt h1 h2
  rw [List.filterMap_append, List.filterMap_append,
    List.filterMap_cons_none (emitTriple_eq_none h1 h2)]

/-- Witness for claim C5 (amended) at the missing-col2 row of OBJ_DETAILS. -/
theorem C5_witness :
    emitTriple (buildCtx subjTr rowBOnly) (subjIriT, predHttpT, objCol2T) = none ∧
    [(subjIriT, predHttpT, objCol2T)].filterMap
        (emitTriple (buildCtx subjTr rowBOnly)) =
      ([] : List (Template × Template × Template)).filterMap
        (emitTriple (buildCtx subjTr rowBOnly)) :=
  ⟨C5_amended_empty_object.1 (buildCtx subjTr rowBOnly)
     (subjIriT, predHttpT, objCol2T) (by decide) (by decide),
   C5_amended_empty_object.2.1 (buildCtx subjTr rowBOnly) [] []
     (subjIriT, predHttpT, objCol2T) (by decide) (by decide)⟩

/-- Claim C6: a template referencing a row column absent from the row renders
as the empty string without raising (rendering is a total function), a triple
whose object template is exactly a lets-binding reference is always emitted
(even when it renders empty), and concretely the test_process_lets_cannot_bind
fixture binds `output_iri` to the empty string and still emits its triple with
an empty-string object. -/
theorem C6_unbound_binding :
    (∀ (ctx : Ctx) (t : Template),
      (∃ c, TPart.var (VarRef.rowCol c) ∈ t ∧ lookupStr c ctx.row = none) →
      renderTemplate ctx t = "") ∧
    (∀ (ctx : Ctx) (st pt : Template) (n : String),
      emitTriple ctx (st, pt, [TPart.var (VarRef.letName n)]) =
        some (renderTemplate ctx st, from_qname (renderTemplate ctx pt),
          renderTemplate ctx [TPart.var (VarRef.letName n)])) ∧
    bindLets rowA letsBindTr.lets =
      [("iri", "http://a_iri"), ("output_iri", "")] ∧
    letsBindTr.process [rowA] =
      [Except.ok ("http://a_iri", "http://predicate", "")] := by
  refine ⟨?_, ?_, by decide, by decide⟩
  · rintro ctx t ⟨c, hmem, hlook⟩
    unfold renderTemplate
    rw [renderParts_eq_none hmem hlook]
  · intro ctx st pt n
    simp only [emitTriple]
    rw [if_neg (fun hc => by simp [hasRowRef, isRowRef] at hc)]

/-- Witness for claim C6's unbound-column conjunct, at the `output_iri`
template of test_process_lets_cannot_bind against the test's row. -/
theorem C6_witness :
    renderTemplate (Ctx.mk rowA [])
      [TPart.var (VarRef.rowCol "col3"), TPart.lit "_iri"] = "" :=
  C6_unbound_binding.1 (Ctx.mk rowA [])
    [TPart.var (VarRef.rowCol "col3"), TPart.lit "_iri"]
    ⟨"col3", by decide, by decide⟩

/-- Claim C8: purge_terms removes every Term failing the retain predicate,
collapses a run of trailing whitespace on a retained Term's object to exactly
one trailing space (objects without trailing whitespace are unchanged), and
the verbosity flag never changes the resulting data; concretely on the model
of test_purge_terms. -/
theorem C8_purge_terms :
    (∀ (model : List Term) (retain : Term → Bool) (v : Bool),
      purge_terms model retain v =
        (model.filter retain).map
          (fun t => Term.mk t.subj t.pred (collapseTrailing t.obj))) ∧
    (∀ (model : List Term) (retain : Term → Bool) (v1 v2 : Bool),
      purge_terms model retain v1 = purge_terms model retain v2) ∧
    (∀ s : String, rstrip s ≠ s →
      collapseTrailing s = String.mk ((rstrip s).data ++ [' '])) ∧
    (∀ s : String, rstrip s = s → collapseTrailing s = s) ∧
    purge_terms purgeModel (fun t => startsWithStr t.obj vmNS) false =
      [Term.mk "s" "p" "http://visual-meaning.com/rdf/test",
       Term.mk "s" "p" "http://visual-meaning.com/rdf/whitespace "] := by
  refine ⟨fun model retain v => rfl, fun model retain v1 v2 => rfl, ?_, ?_,
    by decide⟩
  · intro s h
    unfold collapseTrailing
    rw [if_neg h]
  · intro s h
    unfold collapseTrailing
    rw [if_pos h]

/-- Witness for claim C8's trailing-whitespace conjuncts: the spec's
three-trailing-spaces example collapses to one space, and a clean string is
unchanged. -/
theorem C8_witness :
    collapseTrailing "x   " = String.mk ((rstrip "x   ").data ++ [' ']) ∧
    collapseTrailing "x" = "x" :=
  ⟨C8_purge_terms.2.2.1 "x   " (by decide),
   C8_purge_terms.2.2.2.1 "x" (by decide)⟩

/-- Claim C9, counterexample: the claim states relates_issue holds exactly
when the subject falls under the issues sub-namespace and is not the container
root; at the repository's own test input (test_relates_issue_true) the subject
"http://visual-meaning.com/rdf/test" lies outside the issues sub-namespace,
relates_issue is required to be true, and the claimed characterisation is
false. -/
theorem C9_counterexample :
    relates_issue (Term.mk "http://visual-meaning.com/rdf/test" "p" "o") = true ∧
    relatesIssueSpec (Term.mk "http://visual-meaning.com/rdf/test" "p" "o") =
      false := by
  decide

/-- Claim C9 (amended): relates_issue returns true exactly when the Term's
subject does not fall under the dedicated issues sub-namespace (the container
root itself falls under it, so the root yields false); concretely at both test
inputs of tests/test_rdf.py. -/
theorem C9_amended_relates_issue :
    (∀ t : Term, relates_issue t = true ↔ startsWithStr t.subj issuesNS = false) ∧
    relates_issue (Term.mk "http://visual-meaning.com/rdf/test" "p" "o") = true ∧
    relates_issue (Term.mk "http://visual-meaning.com/rdf/issues/" "p" "o") =
      false := by
  refine ⟨fun t => ?_, by decide, by decide⟩
  unfold relates_issue
  cases h : startsWithStr t.subj issuesNS <;> simp [h]

/-- Claim C10: when Runner.run executes a sheet-reading Transform, the header
row is itself processed as a data row with each cell bound under its own
column name, contributing triples like any other row: sheetRows maps the
header row to the row binding each column name to itself, process consumes it
first like any row, and concretely the run of test_run_with_book produces the
header-derived Term alongside the data-row Term. -/
theorem C10_header_row :
    (∀ (hdr : List String) (rest : List (List String)),
      sheetRows (hdr :: rest) =
        (hdr.zip hdr) :: rest.map (fun r => hdr.zip r)) ∧
    (∀ (tr : Transform) (hdr : List String) (rest : List (List String)),
      tr.process (sheetRows (hdr :: rest)) =
        rowItems tr (hdr.zip hdr) ++
          (dedupFirstAux [hdr.zip hdr] (rest.map (fun r => hdr.zip r))).flatMap
            (rowItems tr)) ∧
    Runner.run [] [] false bookTr bookSheet =
      Except.ok
        [Term.mk "http://a_iri" "http://pred" "b",
         Term.mk "http://col1_iri" "http://pred" "col2"] := by
  refine ⟨fun hdr rest => rfl, fun tr hdr rest => ?_, by decide⟩
  show (dedupFirstAux []
    ((hdr.zip hdr) :: rest.map (fun r => hdr.zip r))).flatMap (rowItems tr) = _
  rw [dedupFirstAux, if_neg (List.not_mem_nil _), List.flatMap_cons]

end StT
